import Mathlib

/-!
Verification of the biovisualize notebooks.

This file gives a shallow embedding, in Lean 4, of the data transformations of
the `create_metacyc_network` (src/unnamed/part_000) and
`create_metacyc_tree` (src/metacyc/create_metacyc_tree.ipynb) notebooks:

* `make_shells` — dividing a node list into concentric shells;
* `add_subset` — building the pathway-category hierarchy as a directed graph;
* `assign_node_weights`, `shift_nodes` — node-attribute updates;
* the `core_pwys` / `deg_pwys` / `syn_pwys` subset construction.

Modelling conventions:

* Python strings are `List Char`; pandas `NaN` cells are `Option.none`.
* All numeric expressions fed to `np.round` are exact rationals of the form
  `a / b` with integer `a` and positive integer `b`; they are represented by
  the pair `(a, b)` and rounded by `npRound a b`, NumPy's round-half-to-even.
  (The notebooks run the arithmetic in IEEE doubles; the values involved are
  modelled exactly, at the grain the claims are stated.)
* Python exceptions (`KeyError`, `AttributeError`) are modelled with `Except`.
* Coordinates of the `pos` node attribute are modelled as exact numbers `ℤ × ℤ`;
  the claims about them are translation/frame facts independent of the scalar.
-/

namespace Biovis

/-- Python strings, modelled as their character lists. -/
abbrev PyStr := List Char

/-- Shorthand for entering a `PyStr` from a string literal. -/
def pstr (s : String) : PyStr := s.data

/-! ### NumPy rounding

`np.round` rounds to the nearest integer, ties to even.  `npRound a b` is
`np.round` applied to the exact rational `a / b` (with `b > 0`). -/

/-- Round-half-to-even of the rational `a / b` (NumPy's `np.round`), for `b > 0`:
with `f = ⌊a/b⌋`, round down when the fractional part is below one half, up
when above, and to the even neighbour on a tie. -/
def npRound (a b : ℤ) : ℤ :=
  if 2 * (a - Int.fdiv a b * b) < b then Int.fdiv a b
  else if b < 2 * (a - Int.fdiv a b * b) then Int.fdiv a b + 1
  else if Int.fdiv a b % 2 = 0 then Int.fdiv a b else Int.fdiv a b + 1

theorem fdiv_bounds {a b : ℤ} (hb : 0 < b) :
    b * Int.fdiv a b ≤ a ∧ a < b * Int.fdiv a b + b := by
  rw [Int.fdiv_eq_ediv _ hb.le]
  have h2 := Int.emod_nonneg a (ne_of_gt hb)
  have h3 := Int.emod_lt_of_pos a hb
  rw [Int.emod_def] at h2 h3
  constructor <;> linarith

theorem npRound_nonneg {a b : ℤ} (hb : 0 < b) (ha : 0 ≤ a) : 0 ≤ npRound a b := by
  have hf : 0 ≤ Int.fdiv a b := Int.fdiv_nonneg ha hb.le
  unfold npRound
  split_ifs <;> omega

theorem npRound_le {a b N : ℤ} (hb : 0 < b) (h : a ≤ N * b) : npRound a b ≤ N := by
  have hbr := fdiv_bounds (a := a) hb
  have hfN : Int.fdiv a b ≤ N := by
    by_contra hc
    push_neg at hc
    have : N * b + b ≤ Int.fdiv a b * b := by
      have : (N + 1) * b ≤ Int.fdiv a b * b :=
        mul_le_mul_of_nonneg_right (by omega) hb.le
      linarith [this]
    linarith [hbr.1, mul_comm b (Int.fdiv a b)]
  have hstrict : b ≤ 2 * (a - Int.fdiv a b * b) → Int.fdiv a b < N := by
    intro hr
    by_contra hc
    push_neg at hc
    have hfe : Int.fdiv a b = N := le_antisymm hfN hc
    rw [hfe] at hr
    have : a ≤ N * b := h
    linarith
  unfold npRound
  split_ifs with h1 h2 h3
  · exact hfN
  · exact hstrict (by omega)
  · exact hfN
  · exact hstrict (by omega)

/-! ### Python list slicing

`l[:k]` and `l[k:]` for an `int` index `k` (a negative index counts from the
end of the list). -/

/-- The effective start/stop index of a Python slice on a list of length `len`. -/
def pySliceIdx (len : ℕ) (k : ℤ) : ℕ :=
  if 0 ≤ k then k.toNat else ((len : ℤ) + k).toNat

/-- Python `l[:k]`. -/
def pyTake {α : Type} (l : List α) (k : ℤ) : List α := l.take (pySliceIdx l.length k)

/-- Python `l[k:]`. -/
def pyDrop {α : Type} (l : List α) (k : ℤ) : List α := l.drop (pySliceIdx l.length k)

theorem pyTake_append_pyDrop {α : Type} (l : List α) (k : ℤ) :
    pyTake l k ++ pyDrop l k = l :=
  List.take_append_drop _ _

/-! ### `make_shells` (src/unnamed/part_000, cell 6)

```
def make_shells(num_shells,nodes):
    total_nodes = len(nodes)
    shells = [[]]*num_shells
    nodes_per_shell = np.round(total_nodes/num_shells)
    for i,s in enumerate(shells,start=1):
        this_shell = nodes_per_shell
        if i==1: from_inner = 0
        else: from_inner = np.round(nodes_per_shell*((i-1)/float(i)))
        to_outer = np.round(nodes_per_shell*(float(i)/(i+1)))
        num_nodes = int(from_inner+this_shell-to_outer)
        if i==num_shells: shells[i-1] = nodes
        else:
            shells[i-1] = nodes[:num_nodes]
            nodes = nodes[num_nodes:]
    return shells
```

The notebook runs Python 3, so `/` is true division; `np.round` yields an
integral float, hence `int(...)` is exact.  `numNodesAt nps i` is the
`num_nodes` computed for shell `i`:
`nps*((i-1)/i) = (nps*(i-1))/i` and `nps*(i/(i+1)) = (nps*i)/(i+1)` as exact
rationals. -/

/-- The `num_nodes` value computed by `make_shells` for shell `i` (1-based). -/
def numNodesAt (nps : ℤ) (i : ℕ) : ℤ :=
  let from_inner : ℤ := if i = 1 then 0 else npRound (nps * ((i : ℤ) - 1)) (i : ℤ)
  let to_outer : ℤ := npRound (nps * (i : ℤ)) ((i : ℤ) + 1)
  from_inner + nps - to_outer

/-- The loop of `make_shells`: `rem` shells remain to fill, the next one is
shell `i` (1-based); the last remaining shell receives all remaining nodes. -/
def shellsGo {α : Type} (nps : ℤ) : ℕ → ℕ → List α → List (List α)
  | 0, _, _ => []
  | 1, _, nodes => [nodes]
  | rem + 2, i, nodes =>
    pyTake nodes (numNodesAt nps i) ::
      shellsGo nps (rem + 1) (i + 1) (pyDrop nodes (numNodesAt nps i))

/-- Model of `make_shells(num_shells, nodes)`.  (For `num_shells = 0` the Python code
raises `ZeroDivisionError`; every claim below assumes `num_shells ≥ 1`.) -/
def make_shells {α : Type} (num_shells : ℕ) (nodes : List α) : List (List α) :=
  shellsGo (npRound (nodes.length : ℤ) (num_shells : ℤ)) num_shells 1 nodes

theorem shellsGo_flatten {α : Type} (nps : ℤ) :
    ∀ (rem i : ℕ) (nodes : List α), 1 ≤ rem →
      (shellsGo nps rem i nodes).flatten = nodes
  | 0, _, _, h => by omega
  | 1, _, nodes, _ => by simp [shellsGo]
  | rem + 2, i, nodes, _ => by
    simp only [shellsGo, List.flatten_cons,
      shellsGo_flatten nps (rem + 1) (i + 1) (pyDrop nodes (numNodesAt nps i)) (by omega)]
    exact pyTake_append_pyDrop nodes (numNodesAt nps i)

theorem shellsGo_length {α : Type} (nps : ℤ) :
    ∀ (rem i : ℕ) (nodes : List α), (shellsGo nps rem i nodes).length = rem
  | 0, _, _ => rfl
  | 1, _, _ => rfl
  | rem + 2, i, nodes => by
    simp [shellsGo,
      shellsGo_length nps (rem + 1) (i + 1) (pyDrop nodes (numNodesAt nps i))]

/-- Claim C1: for every `num_shells ≥ 1` and every node list, concatenating the
shells returned by `make_shells` in order yields exactly the input list: every
node is in exactly one shell, none is dropped or duplicated, and relative
order is preserved. -/
theorem make_shells_partition {α : Type} (num_shells : ℕ) (nodes : List α)
    (h : 1 ≤ num_shells) :
    (make_shells num_shells nodes).flatten = nodes :=
  shellsGo_flatten _ num_shells 1 nodes h

/-- Witness for C1 at a concrete input. -/
theorem make_shells_partition_witness :
    1 ≤ 3 ∧ (make_shells 3 [0, 1, 2, 3, 4, 5, 6, 7, 8, 9]).flatten
      = [0, 1, 2, 3, 4, 5, 6, 7, 8, 9] :=
  ⟨by decide, make_shells_partition 3 [0, 1, 2, 3, 4, 5, 6, 7, 8, 9] (by decide)⟩

/-- Claim C4: for every `num_shells ≥ 1` and every node list (also shorter than
`num_shells`, or empty), `make_shells` returns exactly `num_shells` shells. -/
theorem make_shells_num_shells {α : Type} (num_shells : ℕ) (nodes : List α)
    (h : 1 ≤ num_shells) :
    (make_shells num_shells nodes).length = num_shells :=
  shellsGo_length _ num_shells 1 nodes

/-- Witness for C4 at a concrete input (fewer nodes than shells). -/
theorem make_shells_num_shells_witness :
    1 ≤ 6 ∧ (make_shells 6 [0, 1]).length = 6 :=
  ⟨by decide, make_shells_num_shells 6 [0, 1] (by decide)⟩

/-! ### The spec-side description of `make_shells` (claim C3)

The following definitions are written from the claim's words, not from the
code: shell `i` (for `1 ≤ i < num_shells`) receives exactly
`int(round(nps*(i-1)/i) + nps - round(nps*i/(i+1)))` nodes — or all nodes
remaining at that step, if fewer — taken as a prefix of the not-yet-assigned
nodes, and the last shell receives all remaining nodes, where
`nps = round(total_nodes/num_shells)`. -/

/-- The claim's node-count formula for shell `i` (no special case at `i = 1`). -/
def specCount (nps : ℤ) (i : ℕ) : ℤ :=
  npRound (nps * ((i : ℤ) - 1)) (i : ℤ) + nps - npRound (nps * (i : ℤ)) ((i : ℤ) + 1)

/-- The claim's description of the assignment loop. -/
def specGo {α : Type} (nps : ℤ) : ℕ → ℕ → List α → List (List α)
  | 0, _, _ => []
  | 1, _, nodes => [nodes]
  | rem + 2, i, nodes =>
    nodes.take (specCount nps i).toNat ::
      specGo nps (rem + 1) (i + 1) (nodes.drop (specCount nps i).toNat)

/-- The claim's description of `make_shells`. -/
def specShells {α : Type} (num_shells : ℕ) (nodes : List α) : List (List α) :=
  specGo (npRound (nodes.length : ℤ) (num_shells : ℤ)) num_shells 1 nodes

theorem numNodesAt_def (nps : ℤ) (i : ℕ) :
    numNodesAt nps i =
      (if i = 1 then 0 else npRound (nps * ((i : ℤ) - 1)) (i : ℤ)) + nps -
        npRound (nps * (i : ℤ)) ((i : ℤ) + 1) :=
  rfl

theorem numNodesAt_eq_specCount (nps : ℤ) (i : ℕ) (hi : 1 ≤ i) :
    numNodesAt nps i = specCount nps i := by
  have h0 : npRound 0 1 = 0 := by decide
  rcases Nat.eq_or_lt_of_le hi with h1 | h2
  · rw [numNodesAt_def, specCount, ← h1]
    norm_num [h0]
  · have hne : i ≠ 1 := by omega
    rw [numNodesAt_def, specCount, if_neg hne]

theorem numNodesAt_nonneg (nps : ℤ) (i : ℕ) (hnps : 0 ≤ nps) (hi : 1 ≤ i) :
    0 ≤ numNodesAt nps i := by
  have hib : (0 : ℤ) < (i : ℤ) := by exact_mod_cast hi
  have hto : npRound (nps * (i : ℤ)) ((i : ℤ) + 1) ≤ nps := by
    apply npRound_le (by omega)
    exact mul_le_mul_of_nonneg_left (by omega) hnps
  rw [numNodesAt_def]
  split_ifs with h
  · omega
  · have hfi : 0 ≤ npRound (nps * ((i : ℤ) - 1)) (i : ℤ) :=
      npRound_nonneg hib (mul_nonneg hnps (by omega))
    omega

theorem shellsGo_eq_specGo {α : Type} (nps : ℤ) (hnps : 0 ≤ nps) :
    ∀ (rem i : ℕ) (nodes : List α), 1 ≤ i →
      shellsGo nps rem i nodes = specGo nps rem i nodes
  | 0, _, _, _ => rfl
  | 1, _, _, _ => rfl
  | rem + 2, i, nodes, hi => by
    have hk := numNodesAt_eq_specCount nps i hi
    have hk0 := numNodesAt_nonneg nps i hnps hi
    have htake : pyTake nodes (numNodesAt nps i) = nodes.take (specCount nps i).toNat := by
      rw [pyTake, pySliceIdx, if_pos hk0, hk]
    have hdrop : pyDrop nodes (numNodesAt nps i) = nodes.drop (specCount nps i).toNat := by
      rw [pyDrop, pySliceIdx, if_pos hk0, hk]
    simp only [shellsGo, specGo, htake, hdrop,
      shellsGo_eq_specGo nps hnps (rem + 1) (i + 1) _ (by omega)]

/-- Claim C3: `make_shells` meets the claimed per-shell target: with
`nps = round(total/num_shells)`, each shell `i < num_shells` receives exactly
`int(round(nps*(i-1)/i) + nps - round(nps*i/(i+1)))` nodes (or all remaining,
if fewer) as a prefix of the not-yet-assigned nodes, and the last shell
receives all remaining nodes — i.e. `make_shells` equals the spec-side
description `specShells`. -/
theorem make_shells_refines_spec {α : Type} (num_shells : ℕ) (nodes : List α)
    (h : 1 ≤ num_shells) :
    make_shells num_shells nodes = specShells num_shells nodes := by
  have hnps : 0 ≤ npRound (nodes.length : ℤ) (num_shells : ℤ) :=
    npRound_nonneg (by omega) (by positivity)
  exact shellsGo_eq_specGo _ hnps num_shells 1 nodes (by omega)

/-- Witness for C3 at a concrete input. -/
theorem make_shells_refines_spec_witness :
    1 ≤ 3 ∧ make_shells 3 [0, 1, 2, 3, 4, 5, 6, 7, 8, 9]
      = specShells 3 [0, 1, 2, 3, 4, 5, 6, 7, 8, 9] :=
  ⟨by decide, make_shells_refines_spec 3 [0, 1, 2, 3, 4, 5, 6, 7, 8, 9] (by decide)⟩

/-! ### Directed graphs with node attributes

A minimal model of the `networkx` (1.x) graphs used by the notebooks:
insertion-ordered duplicate-free node and edge lists, plus a per-node
attribute record (`col`, `Name`, `weight`, `pos` are the only attributes the
notebooks ever set).  `add_edge` inserts missing endpoints; re-adding an
existing node or edge is a no-op.  `g.node[n][k] = v` is `updAttr`. -/

/-- The node attributes used by the notebooks.  A field is `none` when the
attribute has not been set; the `Name` attribute stores a pandas cell, which
may itself be `NaN` (hence `Option (Option PyStr)`). -/
structure NodeAttrs where
  col : Option PyStr := none
  nameA : Option (Option PyStr) := none
  weight : Option ℤ := none
  pos : Option (ℤ × ℤ) := none
deriving DecidableEq

/-- A directed graph: nodes and edges in insertion order (without duplicates),
and an attribute record per node (an association list keyed by node). -/
structure DiGraph where
  nodes : List PyStr := []
  edges : List (PyStr × PyStr) := []
  attrs : List (PyStr × NodeAttrs) := []
deriving DecidableEq

/-- Model of `nx.DiGraph()`. -/
def emptyDG : DiGraph := {}

/-- Add a node if not present (with an empty attribute record). -/
def addNode (g : DiGraph) (v : PyStr) : DiGraph :=
  if v ∈ g.nodes then g
  else { g with nodes := g.nodes ++ [v], attrs := g.attrs ++ [(v, {})] }

/-- Model of `g.add_edge(u, v)`: inserts the endpoints, then the edge if new. -/
def addEdge (g : DiGraph) (u v : PyStr) : DiGraph :=
  let g1 := addNode (addNode g u) v
  if (u, v) ∈ g1.edges then g1
  else { g1 with edges := g1.edges ++ [(u, v)] }

/-- Rewrite the attribute record of node `v` with `f` (nodes without a record
are untouched). -/
def updAttr (g : DiGraph) (v : PyStr) (f : NodeAttrs → NodeAttrs) : DiGraph :=
  { g with attrs := g.attrs.map (fun e => if e.1 = v then (e.1, f e.2) else e) }

/-- First attribute record for `v` (empty record when `v` has none). -/
def lookupAttrs : List (PyStr × NodeAttrs) → PyStr → NodeAttrs
  | [], _ => {}
  | e :: t, v => if e.1 = v then e.2 else lookupAttrs t v

/-- The attribute record of node `v` in `g`. -/
def attrOf (g : DiGraph) (v : PyStr) : NodeAttrs := lookupAttrs g.attrs v

/-- Whether node `v` has an attribute record. -/
def hasAttrs : List (PyStr × NodeAttrs) → PyStr → Bool
  | [], _ => false
  | e :: t, v => decide (e.1 = v) || hasAttrs t v

/-- Model of `dg.node[v]['col'] = c`. -/
def setCol (g : DiGraph) (v : PyStr) (c : PyStr) : DiGraph :=
  updAttr g v (fun a => { a with col := some c })

/-- Model of `dg.node[v]['Name'] = name`. -/
def setNameA (g : DiGraph) (v : PyStr) (nm : Option PyStr) : DiGraph :=
  updAttr g v (fun a => { a with nameA := some nm })

/-- In-degree of `v`: number of (distinct) edges into `v`. -/
def inDegree (g : DiGraph) (v : PyStr) : ℕ :=
  (g.edges.filter (fun e => decide (e.2 = v))).length

/-- Reachability along a directed edge list. -/
inductive ReachE (E : List (PyStr × PyStr)) : PyStr → PyStr → Prop
  | refl (v : PyStr) : ReachE E v v
  | head {u v w : PyStr} : (u, v) ∈ E → ReachE E v w → ReachE E u w

/-- A directed graph is acyclic when no edge closes a directed cycle. -/
def Acyclic (g : DiGraph) : Prop :=
  ∀ u v : PyStr, (u, v) ∈ g.edges → ¬ ReachE g.edges v u

/-! ### The category table

One row of `metacyc_df`, restricted to the columns `add_subset` touches.
`Pathway` is the grouping key; every other cell may be `NaN` (`none`). -/

/-- A row of the `metacyc.ec2pathcats` table. -/
structure Row where
  pathway : PyStr
  category1 : Option PyStr := none
  category2 : Option PyStr := none
  category3 : Option PyStr := none
  category4 : Option PyStr := none
  category5 : Option PyStr := none
  category6 : Option PyStr := none
  category7 : Option PyStr := none
  parent : Option PyStr := none
  name : Option PyStr := none
deriving DecidableEq

/-- Model of `r["Category"+str(i)]` for `i ∈ 2..7`. -/
def catAt (r : Row) : ℕ → Option PyStr
  | 2 => r.category2
  | 3 => r.category3
  | 4 => r.category4
  | 5 => r.category5
  | 6 => r.category6
  | 7 => r.category7
  | _ => none

/-- Model of `metacyc_df.loc[(metacyc_df.Category1==root) & (metacyc_df.Pathway.isin(pwys))]`.
(A `NaN` in `Category1` compares unequal to `root`, so such rows are dropped.) -/
def filterRows (root : PyStr) (pwys : List PyStr) (rows : List Row) : List Row :=
  rows.filter (fun r => decide (r.category1 = some root) && decide (r.pathway ∈ pwys))

/-- The rows of the group keyed by pathway `p`. -/
def rowsFor (rows : List Row) (p : PyStr) : List Row :=
  rows.filter (fun r => decide (r.pathway = p))

/-- First non-`NaN` value of a column within a group (pandas `GroupBy.first`). -/
def firstVal (rs : List Row) (f : Row → Option PyStr) : Option PyStr :=
  (rs.filterMap f).head?

/-- Model of `df.groupby("Pathway").first().loc[p]`: the aggregated row of group `p`,
or `none` (a `KeyError`) when `p` has no row. -/
def lookupRow (rows : List Row) (p : PyStr) : Option Row :=
  match rowsFor rows p with
  | [] => none
  | rs => some
      { pathway := p
        category1 := firstVal rs (fun r => r.category1)
        category2 := firstVal rs (fun r => r.category2)
        category3 := firstVal rs (fun r => r.category3)
        category4 := firstVal rs (fun r => r.category4)
        category5 := firstVal rs (fun r => r.category5)
        category6 := firstVal rs (fun r => r.category6)
        category7 := firstVal rs (fun r => r.category7)
        parent := firstVal rs (fun r => r.parent)
        name := firstVal rs (fun r => r.name) }

/-! ### `add_subset` (src/metacyc/create_metacyc_tree.ipynb, cell at lines 167-202)

```
def add_subset(root,pwys,metacyc_df,col='b'):
    dg = nx.DiGraph()
    df = metacyc_df.loc[(metacyc_df.Category1==root) & (metacyc_df.Pathway.isin(pwys))]
    df = df.groupby("Pathway").first()
    df = df.loc[:,["Category1",...,"Category7","Parent","Name"]]
    for p in pwys:
        r = df.loc[p]
        previous = root
        for i in range(2,8):
            c = "Category"+str(i)
            current = r[c]
            if current!=current: current = previous
            current = current.split("|")[0]+"|"+str(i)
            dg.add_edge(previous,current)
            dg.node[current]['col'] = col
            dg.node[previous]['col'] = col
            previous = current
        i = 8
        current = r["Parent"]
        if current!=current: current = r["Parent"]
        current = current.split("|")[0]+"|"+str(i)
        dg.add_edge(previous,current)
        dg.node[current]['col'] = col
        dg.node[previous]['col'] = col
        dg.add_edge(current,p)
        dg.node[p]['col'] = col
        name = r["Name"]
        dg.node[p]['Name'] = name
    return dg
```

`x != x` is the pandas `NaN` test.  Note the `Parent` step: its guard
reassigns `r["Parent"]` (not `previous`), so a `NaN` parent reaches
`current.split` and raises `AttributeError` — modelled as `Except.error`. -/

/-- Python exceptions raised by the modelled code. -/
inductive PyError where
  | keyError : PyStr → PyError
  | attributeError : PyError
deriving DecidableEq

/-- Model of `current.split("|")[0]`. -/
def firstSeg (s : PyStr) : PyStr := s.takeWhile (fun c => !(c == '|'))

/-- Model of `current.split("|")[0]+"|"+str(i)`. -/
def levelName (s : PyStr) (i : ℕ) : PyStr := firstSeg s ++ '|' :: Nat.toDigits 10 i

/-- The `current` node name of level `i` of the walk: the row's value for
`Category{i}` — or `previous` when that value is `NaN` — tagged with `|i`. -/
def catName (r : Row) (previous : PyStr) (i : ℕ) : PyStr :=
  levelName (match catAt r i with
    | none => previous
    | some s => s) i

/-- One iteration of the inner `for i in range(2,8)` loop of `add_subset`:
state is `(previous, dg)`; the edge `previous → current` is added and both
endpoints get the colour attribute. -/
def catStep (r : Row) (col : PyStr) (st : PyStr × DiGraph) (i : ℕ) : PyStr × DiGraph :=
  (catName r st.1 i,
   setCol (setCol (addEdge st.2 st.1 (catName r st.1 i)) (catName r st.1 i) col) st.1 col)

/-- The `i = 8` (`Parent`) step and the final pathway node of `add_subset`'s
per-pathway walk.  The `NaN` guard is the source's no-op reassignment, so a
`NaN` parent falls through to `.split` and raises `AttributeError`. -/
def parentStep (r : Row) (col : PyStr) (p : PyStr) (st : PyStr × DiGraph) :
    Except PyError DiGraph :=
  let cur0 := r.parent
  let cur1 := if cur0.isNone then r.parent else cur0
  match cur1 with
  | none => .error .attributeError
  | some s =>
    let current := levelName s 8
    let g := addEdge st.2 st.1 current
    let g := setCol g current col
    let g := setCol g st.1 col
    let g := addEdge g current p
    let g := setCol g p col
    .ok (setNameA g p r.name)

/-- The whole walk of `add_subset` for one pathway `p` (`r = df.loc[p]` may
raise `KeyError`). -/
def addPath (rows : List Row) (root col : PyStr) (g : DiGraph) (p : PyStr) :
    Except PyError DiGraph :=
  match lookupRow rows p with
  | none => .error (.keyError p)
  | some r => parentStep r col p (([2, 3, 4, 5, 6, 7] : List ℕ).foldl (catStep r col) (root, g))

/-- The `for p in pwys` loop of `add_subset`; an exception aborts the loop. -/
def addSubsetGo (rows : List Row) (root col : PyStr) (g : DiGraph) :
    List PyStr → Except PyError DiGraph
  | [] => .ok g
  | p :: ps =>
    match addPath rows root col g p with
    | .error e => .error e
    | .ok g2 => addSubsetGo rows root col g2 ps

/-- Model of `add_subset(root, pwys, metacyc_df, col)`. -/
def add_subset (root : PyStr) (pwys : List PyStr) (metacyc_df : List Row)
    (col : PyStr) : Except PyError DiGraph :=
  addSubsetGo (filterRows root pwys metacyc_df) root col emptyDG pwys

/-- The graph of a successful `add_subset` run (`emptyDG` on an exception). -/
def resultGraph : Except PyError DiGraph → DiGraph
  | .ok g => g
  | .error _ => emptyDG

/-- Whether an `Except` result is a success. -/
def isOkE {ε σ : Type} : Except ε σ → Bool
  | .ok _ => true
  | .error _ => false

instance {ε σ : Type} [DecidableEq ε] [DecidableEq σ] : DecidableEq (Except ε σ) := fun x y =>
  match x, y with
  | .ok a, .ok b =>
    decidable_of_iff (a = b) ⟨fun h => h ▸ rfl, fun h => by injection h⟩
  | .ok _, .error _ => isFalse (fun h => by injection h)
  | .error _, .ok _ => isFalse (fun h => by injection h)
  | .error e, .error f =>
    decidable_of_iff (e = f) ⟨fun h => h ▸ rfl, fun h => by injection h⟩

/-! ### Levels of the node names built by `add_subset`

Every node of the graph built by `add_subset` is the root (level 1), a tagged
category name `b ++ "|" ++ str i` with bar-free `b` and `i ∈ 2..8` (level `i`),
or a pathway (level 9).  Provided the root and the pathways contain no `'|'`
and no pathway equals the root, the level is recoverable from the node name
alone, and every edge increases it — whence acyclicity. -/

/-- Holds when `s` contains no `'|'` character. -/
def barFree (s : PyStr) : Bool := s.all (fun c => !(c == '|'))

/-- Level encoded by the suffix of a tagged name (`0` on junk). -/
def rankTail : List Char → ℕ
  | [c] => c.toNat - 48
  | _ => 0

/-- The level of a node name, relative to the given root. -/
def rank (root s : PyStr) : ℕ :=
  if s.dropWhile (fun c => !(c == '|')) = [] then (if s = root then 1 else 9)
  else rankTail ((s.dropWhile (fun c => !(c == '|'))).tail)

theorem mem_takeWhile_pred {q : Char → Bool} :
    ∀ (l : PyStr), ∀ c ∈ l.takeWhile q, q c = true
  | [], c, h => by simp [List.takeWhile] at h
  | a :: t, c, h => by
    by_cases ha : q a = true
    · rw [List.takeWhile_cons_of_pos ha] at h
      rcases List.mem_cons.mp h with h1 | h2
      · rwa [h1]
      · exact mem_takeWhile_pred t c h2
    · rw [List.takeWhile_cons_of_neg ha] at h
      simp at h

theorem dropWhile_append_all {q : Char → Bool} :
    ∀ (l r : PyStr), (∀ c ∈ l, q c = true) →
      (l ++ r).dropWhile q = r.dropWhile q
  | [], r, _ => rfl
  | a :: t, r, h => by
    have ha : q a = true := h a (List.mem_cons_self a t)
    rw [List.cons_append, List.dropWhile_cons_of_pos ha]
    exact dropWhile_append_all t r (fun c hc => h c (List.mem_cons_of_mem a hc))

theorem dropWhile_all_nil {q : Char → Bool} (l : PyStr) (h : ∀ c ∈ l, q c = true) :
    l.dropWhile q = [] := by
  have := dropWhile_append_all l [] h
  rwa [List.append_nil] at this

theorem rank_barFree (root s : PyStr) (hs : barFree s = true) :
    rank root s = if s = root then 1 else 9 := by
  rw [rank, if_pos (dropWhile_all_nil s (List.all_eq_true.mp hs))]

theorem rank_root_self (root : PyStr) (hroot : barFree root = true) :
    rank root root = 1 := by
  rw [rank_barFree root root hroot, if_pos rfl]

theorem rank_pathway (root p : PyStr) (hp : barFree p = true) (hne : p ≠ root) :
    rank root p = 9 := by
  rw [rank_barFree root p hp, if_neg hne]

theorem rank_levelName (root b : PyStr) (i : ℕ) (h2 : 2 ≤ i) (h8 : i ≤ 8) :
    rank root (levelName b i) = i := by
  have hdrop : (levelName b i).dropWhile (fun c => !(c == '|'))
      = '|' :: Nat.toDigits 10 i := by
    rw [levelName,
      dropWhile_append_all (firstSeg b) ('|' :: Nat.toDigits 10 i)
        (fun c hc => mem_takeWhile_pred b c hc),
      List.dropWhile_cons_of_neg (by simp)]
  rw [rank, hdrop]
  have htail : rankTail (Nat.toDigits 10 i) = i := by
    interval_cases i <;> decide
  simp [htail]

/-! ### Graph-operation lemmas -/

theorem addNode_edges (g : DiGraph) (v : PyStr) : (addNode g v).edges = g.edges := by
  rw [addNode]
  split_ifs <;> rfl

theorem mem_addNode_nodes {g : DiGraph} {v w : PyStr} :
    w ∈ (addNode g v).nodes ↔ w ∈ g.nodes ∨ w = v := by
  rw [addNode]
  split_ifs with h
  · constructor
    · exact fun hw => Or.inl hw
    · rintro (hw | rfl) <;> [exact hw; exact h]
  · simp

theorem addEdge_mem_edges (g : DiGraph) (u v : PyStr) : (u, v) ∈ (addEdge g u v).edges := by
  rw [addEdge]
  split_ifs with h
  · simpa [addNode_edges] using h
  · simp

theorem mem_addEdge_edges {g : DiGraph} {u v : PyStr} {e : PyStr × PyStr} :
    e ∈ (addEdge g u v).edges ↔ e ∈ g.edges ∨ e = (u, v) := by
  rw [addEdge]
  split_ifs with h
  · simp only [addNode_edges] at h ⊢
    constructor
    · exact fun he => Or.inl he
    · rintro (he | rfl) <;> [exact he; exact h]
  · simp [addNode_edges]

theorem mem_addEdge_nodes {g : DiGraph} {u v w : PyStr} :
    w ∈ (addEdge g u v).nodes ↔ w ∈ g.nodes ∨ w = u ∨ w = v := by
  have hn : (addEdge g u v).nodes = (addNode (addNode g u) v).nodes := by
    rw [addEdge]
    split_ifs <;> rfl
  rw [hn, mem_addNode_nodes, mem_addNode_nodes]
  tauto

theorem updAttr_nodes (g : DiGraph) (v : PyStr) (f : NodeAttrs → NodeAttrs) :
    (updAttr g v f).nodes = g.nodes := rfl

theorem updAttr_edges (g : DiGraph) (v : PyStr) (f : NodeAttrs → NodeAttrs) :
    (updAttr g v f).edges = g.edges := rfl

@[simp] theorem setCol_nodes (g : DiGraph) (v c : PyStr) :
    (setCol g v c).nodes = g.nodes := rfl

@[simp] theorem setCol_edges (g : DiGraph) (v c : PyStr) :
    (setCol g v c).edges = g.edges := rfl

@[simp] theorem setNameA_nodes (g : DiGraph) (v : PyStr) (nm : Option PyStr) :
    (setNameA g v nm).nodes = g.nodes := rfl

@[simp] theorem setNameA_edges (g : DiGraph) (v : PyStr) (nm : Option PyStr) :
    (setNameA g v nm).edges = g.edges := rfl

/-! ### Reachability lemmas -/

theorem ReachE.mono {E F : List (PyStr × PyStr)} (hEF : ∀ e ∈ E, e ∈ F) :
    ∀ {u v : PyStr}, ReachE E u v → ReachE F u v := by
  intro u v h
  induction h with
  | refl w => exact ReachE.refl w
  | head he _ ih => exact ReachE.head (hEF _ he) ih

theorem ReachE.snoc {E : List (PyStr × PyStr)} {u v w : PyStr}
    (h : ReachE E u v) (he : (v, w) ∈ E) : ReachE E u w := by
  induction h with
  | refl x => exact ReachE.head he (ReachE.refl w)
  | head he2 _ ih => exact ReachE.head he2 (ih he)

theorem ReachE.rank_le {root : PyStr} {E : List (PyStr × PyStr)}
    (hr : ∀ e ∈ E, rank root e.1 < rank root e.2) :
    ∀ {u v : PyStr}, ReachE E u v → rank root u ≤ rank root v := by
  intro u v h
  induction h with
  | refl w => exact le_refl _
  | head he _ ih => exact le_of_lt (lt_of_lt_of_le (hr _ he) ih)

/-! ### The construction invariant of `add_subset` -/

/-- Every edge increases the level. -/
def EdgesRanked (root : PyStr) (g : DiGraph) : Prop :=
  ∀ e ∈ g.edges, rank root e.1 < rank root e.2

/-- Some edge enters `v`. -/
def HasInEdge (g : DiGraph) (v : PyStr) : Prop :=
  ∃ u, (u, v) ∈ g.edges

/-- The invariant maintained while `add_subset` builds its graph: edges
increase the level, every non-root node has an incoming edge, and every node
is reachable from the root. -/
def GInv (root : PyStr) (g : DiGraph) : Prop :=
  EdgesRanked root g ∧ (∀ v ∈ g.nodes, v ≠ root → HasInEdge g v) ∧
    (∀ v ∈ g.nodes, ReachE g.edges root v)

theorem GInv_empty (root : PyStr) : GInv root emptyDG :=
  ⟨fun e he => absurd he (by simp [emptyDG]),
   fun v hv => absurd hv (by simp [emptyDG]),
   fun v hv => absurd hv (by simp [emptyDG])⟩

theorem GInv_addEdge {root : PyStr} {g : DiGraph} {u v : PyStr}
    (hInv : GInv root g) (hu : u = root ∨ u ∈ g.nodes)
    (hrank : rank root u < rank root v) :
    GInv root (addEdge g u v) := by
  obtain ⟨hER, hIE, hRR⟩ := hInv
  have hsub : ∀ e ∈ g.edges, e ∈ (addEdge g u v).edges :=
    fun e he => mem_addEdge_edges.mpr (Or.inl he)
  have hedge : (u, v) ∈ (addEdge g u v).edges := addEdge_mem_edges g u v
  have hru : ReachE (addEdge g u v).edges root u := by
    rcases hu with rfl | hu
    · exact ReachE.refl u
    · exact ReachE.mono hsub (hRR u hu)
  refine ⟨?_, ?_, ?_⟩
  · intro e he
    rcases mem_addEdge_edges.mp he with he1 | rfl
    · exact hER e he1
    · exact hrank
  · intro w hw hwne
    rcases mem_addEdge_nodes.mp hw with hw1 | rfl | rfl
    · obtain ⟨x, hx⟩ := hIE w hw1 hwne
      exact ⟨x, hsub _ hx⟩
    · rcases hu with rfl | hu1
      · exact absurd rfl hwne
      · obtain ⟨x, hx⟩ := hIE w hu1 hwne
        exact ⟨x, hsub _ hx⟩
    · exact ⟨u, hedge⟩
  · intro w hw
    rcases mem_addEdge_nodes.mp hw with hw1 | rfl | rfl
    · exact ReachE.mono hsub (hRR w hw1)
    · exact hru
    · exact ReachE.snoc hru hedge

theorem GInv_updAttr {root : PyStr} {g : DiGraph} {v : PyStr}
    {f : NodeAttrs → NodeAttrs} (hInv : GInv root g) :
    GInv root (updAttr g v f) := hInv

theorem GInv_setCol {root : PyStr} {g : DiGraph} {v c : PyStr} (hInv : GInv root g) :
    GInv root (setCol g v c) := hInv

theorem GInv_setNameA {root : PyStr} {g : DiGraph} {v : PyStr} {nm : Option PyStr}
    (hInv : GInv root g) : GInv root (setNameA g v nm) := hInv

theorem Acyclic_of_ranked {root : PyStr} {g : DiGraph} (h : EdgesRanked root g) :
    Acyclic g := by
  intro u v he hreach
  have h1 : rank root u < rank root v := h (u, v) he
  have h2 := ReachE.rank_le h hreach
  omega

theorem rank_catName (root : PyStr) (r : Row) (previous : PyStr) (i : ℕ)
    (h2 : 2 ≤ i) (h8 : i ≤ 8) : rank root (catName r previous i) = i :=
  rank_levelName root _ i h2 h8

@[simp] theorem catStep_fst (r : Row) (col : PyStr) (st : PyStr × DiGraph) (i : ℕ) :
    (catStep r col st i).1 = catName r st.1 i := rfl

@[simp] theorem catStep_snd (r : Row) (col : PyStr) (st : PyStr × DiGraph) (i : ℕ) :
    (catStep r col st i).2 =
      setCol (setCol (addEdge st.2 st.1 (catName r st.1 i)) (catName r st.1 i) col)
        st.1 col := rfl

theorem catStep_inv (root col : PyStr) (r : Row) (st : PyStr × DiGraph) (i : ℕ)
    (h2 : 2 ≤ i) (h8 : i ≤ 8) (hInv : GInv root st.2)
    (hprev : st.1 = root ∨ st.1 ∈ st.2.nodes) (hpr : rank root st.1 < i) :
    GInv root (catStep r col st i).2
    ∧ rank root (catStep r col st i).1 = i
    ∧ (catStep r col st i).1 ∈ (catStep r col st i).2.nodes
    ∧ (∀ w ∈ st.2.nodes, w ∈ (catStep r col st i).2.nodes)
    ∧ st.1 ∈ (catStep r col st i).2.nodes := by
  have hrk := rank_catName root r st.1 i h2 h8
  refine ⟨?_, ?_, ?_, ?_, ?_⟩
  · simp only [catStep_snd]
    exact GInv_setCol (GInv_setCol (GInv_addEdge hInv hprev (by rw [hrk]; exact hpr)))
  · simp only [catStep_fst]
    exact hrk
  · simp only [catStep_fst, catStep_snd, setCol_nodes]
    exact mem_addEdge_nodes.mpr (Or.inr (Or.inr rfl))
  · simp only [catStep_snd, setCol_nodes]
    exact fun w hw => mem_addEdge_nodes.mpr (Or.inl hw)
  · simp only [catStep_snd, setCol_nodes]
    exact mem_addEdge_nodes.mpr (Or.inr (Or.inl rfl))

theorem parentStep_inv (root col p : PyStr) (r : Row) (st : PyStr × DiGraph)
    (g2 : DiGraph) (hp : barFree p = true) (hpne : p ≠ root)
    (hInv : GInv root st.2) (hprev : st.1 ∈ st.2.nodes)
    (hpr : rank root st.1 < 8)
    (hok : parentStep r col p st = .ok g2) :
    GInv root g2 ∧ (∀ w ∈ st.2.nodes, w ∈ g2.nodes) := by
  cases hpar : r.parent with
  | none =>
    simp [parentStep, hpar] at hok
  | some s =>
    simp only [parentStep, hpar, Option.isNone_some, Bool.false_eq_true, if_false] at hok
    have hok2 : setNameA (setCol (addEdge (setCol (setCol (addEdge st.2 st.1
        (levelName s 8)) (levelName s 8) col) st.1 col) (levelName s 8) p) p col)
        p r.name = g2 := by
      cases hok
      rfl
    have hInv8 : GInv root (addEdge st.2 st.1 (levelName s 8)) :=
      GInv_addEdge hInv (Or.inr hprev) (by rw [rank_levelName root s 8 (by omega) (by omega)]; exact hpr)
    have hmem8 : (levelName s 8) ∈ (addEdge st.2 st.1 (levelName s 8)).nodes :=
      mem_addEdge_nodes.mpr (Or.inr (Or.inr rfl))
    have hInv9 : GInv root (addEdge (setCol (setCol (addEdge st.2 st.1
        (levelName s 8)) (levelName s 8) col) st.1 col) (levelName s 8) p) :=
      GInv_addEdge hInv8 (Or.inr hmem8)
        (by rw [rank_levelName root s 8 (by omega) (by omega),
              rank_pathway root p hp hpne]; omega)
    rw [← hok2]
    constructor
    · exact GInv_setNameA (GInv_setCol hInv9)
    · intro w hw
      simp only [setNameA_nodes, setCol_nodes]
      refine mem_addEdge_nodes.mpr (Or.inl ?_)
      simp only [setCol_nodes]
      exact mem_addEdge_nodes.mpr (Or.inl hw)

theorem addPath_inv (rows : List Row) (root col p : PyStr) (g g2 : DiGraph)
    (hroot : barFree root = true) (hp : barFree p = true) (hpne : p ≠ root)
    (hInv : GInv root g)
    (hok : addPath rows root col g p = .ok g2) :
    GInv root g2 ∧ root ∈ g2.nodes ∧ (∀ w ∈ g.nodes, w ∈ g2.nodes) := by
  rw [addPath] at hok
  cases hlr : lookupRow rows p with
  | none =>
    rw [hlr] at hok
    exact absurd hok (by simp)
  | some r =>
    rw [hlr] at hok
    simp only [List.foldl_cons, List.foldl_nil] at hok
    obtain ⟨i2, r2, c2, m2, p2⟩ :=
      catStep_inv root col r (root, g) 2 (by omega) (by omega) hInv (Or.inl rfl)
        (by rw [rank_root_self root hroot]; omega)
    obtain ⟨i3, r3, c3, m3, p3⟩ :=
      catStep_inv root col r (catStep r col (root, g) 2) 3 (by omega) (by omega) i2
        (Or.inr c2) (by rw [r2]; omega)
    obtain ⟨i4, r4, c4, m4, p4⟩ :=
      catStep_inv root col r (catStep r col (catStep r col (root, g) 2) 3) 4
        (by omega) (by omega) i3 (Or.inr c3) (by rw [r3]; omega)
    obtain ⟨i5, r5, c5, m5, p5⟩ :=
      catStep_inv root col r (catStep r col (catStep r col (catStep r col (root, g) 2) 3) 4)
        5 (by omega) (by omega) i4 (Or.inr c4) (by rw [r4]; omega)
    obtain ⟨i6, r6, c6, m6, p6⟩ :=
      catStep_inv root col r (catStep r col (catStep r col (catStep r col
        (catStep r col (root, g) 2) 3) 4) 5) 6 (by omega) (by omega) i5
        (Or.inr c5) (by rw [r5]; omega)
    obtain ⟨i7, r7, c7, m7, p7⟩ :=
      catStep_inv root col r (catStep r col (catStep r col (catStep r col
        (catStep r col (catStep r col (root, g) 2) 3) 4) 5) 6) 7 (by omega)
        (by omega) i6 (Or.inr c6) (by rw [r6]; omega)
    obtain ⟨iF, mF⟩ :=
      parentStep_inv root col p r (catStep r col (catStep r col (catStep r col
        (catStep r col (catStep r col (catStep r col (root, g) 2) 3) 4) 5) 6) 7)
        g2 hp hpne i7 c7 (by rw [r7]; omega) hok
    refine ⟨iF, ?_, ?_⟩
    · exact mF _ (m7 _ (m6 _ (m5 _ (m4 _ (m3 _ p2)))))
    · exact fun w hw => mF _ (m7 _ (m6 _ (m5 _ (m4 _ (m3 _ (m2 _ hw))))))

theorem addSubsetGo_inv (rows : List Row) (root col : PyStr)
    (hroot : barFree root = true) :
    ∀ (ps : List PyStr) (g gf : DiGraph),
      (∀ p ∈ ps, barFree p = true ∧ p ≠ root) →
      GInv root g → addSubsetGo rows root col g ps = .ok gf →
      GInv root gf ∧ (∀ v ∈ g.nodes, v ∈ gf.nodes) ∧ (ps ≠ [] → root ∈ gf.nodes)
  | [], g, gf, _, hInv, hok => by
    have hg : g = gf := by
      simpa [addSubsetGo] using hok
    subst hg
    exact ⟨hInv, fun v hv => hv, fun hne => absurd rfl hne⟩
  | p :: ps, g, gf, hps, hInv, hok => by
    rw [addSubsetGo] at hok
    cases hap : addPath rows root col g p with
    | error e => rw [hap] at hok; exact absurd hok (by simp)
    | ok g2 =>
      rw [hap] at hok
      obtain ⟨hb, hne⟩ := hps p (List.mem_cons_self p ps)
      obtain ⟨hInv2, hroot2, hmono2⟩ :=
        addPath_inv rows root col p g g2 hroot hb hne hInv hap
      obtain ⟨hInvF, hmonoF, _⟩ :=
        addSubsetGo_inv rows root col hroot ps g2 gf
          (fun q hq => hps q (List.mem_cons_of_mem p hq)) hInv2 hok
      exact ⟨hInvF, fun v hv => hmonoF v (hmono2 v hv), fun _ => hmonoF root hroot2⟩

/-! ### Claim C2: `add_subset` and the tree property

The claim fails: two pathways that share a category name at some level but
differ at the previous level give that level's node two incoming edges.  The
counterexample below satisfies all of the claim's hypotheses (every listed
pathway has a row with `Category1 = root` and non-null `Parent` and `Name`).
What does hold is a rooted DAG: acyclic, rooted, every non-root node with at
least one incoming edge and reachable from the root. -/

/-- Counterexample table for C2, row for pathway `p1`: categories `A`, `C`. -/
def c2Row1 : Row :=
  { pathway := pstr "p1", category1 := some (pstr "R"), category2 := some (pstr "A"),
    category3 := some (pstr "C"), parent := some (pstr "P"), name := some (pstr "n1") }

/-- Counterexample table for C2, row for pathway `p2`: categories `B`, `C`. -/
def c2Row2 : Row :=
  { pathway := pstr "p2", category1 := some (pstr "R"), category2 := some (pstr "B"),
    category3 := some (pstr "C"), parent := some (pstr "P"), name := some (pstr "n2") }

set_option maxRecDepth 40000 in
/-- Claim C2, counterexample: on the two-pathway table `[c2Row1, c2Row2]`
(root `R`, both pathways listed, each with a `Category1 = R` row and non-null
`Parent` and `Name`), `add_subset` succeeds and the non-root node `C|3` has
in-degree 2 — so not every node other than the root has in-degree 1, and the
returned graph is not a tree. -/
theorem add_subset_not_tree :
    isOkE (add_subset (pstr "R") [pstr "p1", pstr "p2"] [c2Row1, c2Row2] (pstr "b")) = true
    ∧ pstr "C|3" ∈ (resultGraph (add_subset (pstr "R") [pstr "p1", pstr "p2"]
        [c2Row1, c2Row2] (pstr "b"))).nodes
    ∧ pstr "C|3" ≠ pstr "R"
    ∧ inDegree (resultGraph (add_subset (pstr "R") [pstr "p1", pstr "p2"]
        [c2Row1, c2Row2] (pstr "b"))) (pstr "C|3") = 2 :=
  ⟨by decide, by decide, by decide, by decide⟩

/-- Claim C2 (amended): for every category table and non-empty pathway list on
which `add_subset` succeeds, if the root and the listed pathway names contain
no `'|'` and no pathway equals the root, the returned directed graph is a
rooted DAG: it is acyclic, contains the root, and every node other than the
root has at least one incoming edge (possibly more than one) and is reachable
from the root. -/
theorem add_subset_rooted_dag (root : PyStr) (pwys : List PyStr) (df : List Row)
    (col : PyStr) (hroot : barFree root = true)
    (hps : ∀ p ∈ pwys, barFree p = true ∧ p ≠ root)
    (hne : pwys ≠ [])
    (hok : isOkE (add_subset root pwys df col) = true) :
    Acyclic (resultGraph (add_subset root pwys df col))
    ∧ root ∈ (resultGraph (add_subset root pwys df col)).nodes
    ∧ ∀ v ∈ (resultGraph (add_subset root pwys df col)).nodes, v ≠ root →
        HasInEdge (resultGraph (add_subset root pwys df col)) v
        ∧ ReachE (resultGraph (add_subset root pwys df col)).edges root v := by
  cases hres : add_subset root pwys df col with
  | error e =>
    rw [hres] at hok
    simp [isOkE] at hok
  | ok gf =>
    have hgo : addSubsetGo (filterRows root pwys df) root col emptyDG pwys = .ok gf := by
      rw [add_subset] at hres
      exact hres
    obtain ⟨hInv, _, hrootm⟩ :=
      addSubsetGo_inv (filterRows root pwys df) root col hroot pwys emptyDG gf hps
        (GInv_empty root) hgo
    simp only [resultGraph]
    exact ⟨Acyclic_of_ranked hInv.1, hrootm hne,
      fun v hv hvne => ⟨hInv.2.1 v hv hvne, hInv.2.2 v hv⟩⟩

set_option maxRecDepth 40000 in
/-- Witness for the amended C2 at a concrete input. -/
theorem add_subset_rooted_dag_witness :
    (barFree (pstr "R") = true
      ∧ (∀ p ∈ [pstr "p1", pstr "p2"], barFree p = true ∧ p ≠ pstr "R")
      ∧ [pstr "p1", pstr "p2"] ≠ ([] : List PyStr)
      ∧ isOkE (add_subset (pstr "R") [pstr "p1", pstr "p2"] [c2Row1, c2Row2]
          (pstr "b")) = true)
    ∧ (Acyclic (resultGraph (add_subset (pstr "R") [pstr "p1", pstr "p2"]
          [c2Row1, c2Row2] (pstr "b")))
      ∧ pstr "R" ∈ (resultGraph (add_subset (pstr "R") [pstr "p1", pstr "p2"]
          [c2Row1, c2Row2] (pstr "b"))).nodes
      ∧ ∀ v ∈ (resultGraph (add_subset (pstr "R") [pstr "p1", pstr "p2"]
          [c2Row1, c2Row2] (pstr "b"))).nodes, v ≠ pstr "R" →
          HasInEdge (resultGraph (add_subset (pstr "R") [pstr "p1", pstr "p2"]
            [c2Row1, c2Row2] (pstr "b"))) v
          ∧ ReachE (resultGraph (add_subset (pstr "R") [pstr "p1", pstr "p2"]
              [c2Row1, c2Row2] (pstr "b"))).edges (pstr "R") v) :=
  ⟨⟨by decide, by decide, by decide, by decide⟩,
   add_subset_rooted_dag (pstr "R") [pstr "p1", pstr "p2"] [c2Row1, c2Row2] (pstr "b")
     (by decide) (by decide) (by decide) (by decide)⟩

/-! ### Claim C5: determinism -/

/-- Row used by the C5 witness. -/
def c5Row : Row :=
  { pathway := pstr "p1", category1 := some (pstr "R"), category2 := some (pstr "A"),
    parent := some (pstr "P"), name := some (pstr "n1") }

/-- Claim C5: both transformations are deterministic — two runs of
`make_shells` on equal `(num_shells, nodes)` inputs return identical shell
lists, and two runs of `add_subset` on equal `(root, pwys, table, col)`
inputs return identical graphs (same node set, edge set and attributes). -/
theorem transformations_deterministic (n1 n2 : ℕ) (ns1 ns2 : List PyStr)
    (r1 r2 : PyStr) (p1 p2 : List PyStr) (d1 d2 : List Row) (c1 c2 : PyStr)
    (hn : n1 = n2) (hns : ns1 = ns2) (hr : r1 = r2) (hp : p1 = p2)
    (hd : d1 = d2) (hc : c1 = c2) :
    make_shells n1 ns1 = make_shells n2 ns2
    ∧ add_subset r1 p1 d1 c1 = add_subset r2 p2 d2 c2 := by
  subst hn
  subst hns
  subst hr
  subst hp
  subst hd
  subst hc
  exact ⟨rfl, rfl⟩

/-- Witness for C5 at a concrete input. -/
theorem transformations_deterministic_witness :
    (2 = 2 ∧ [pstr "a"] = [pstr "a"] ∧ pstr "R" = pstr "R"
      ∧ [pstr "p1"] = [pstr "p1"] ∧ [c5Row] = [c5Row] ∧ pstr "b" = pstr "b")
    ∧ (make_shells 2 [pstr "a"] = make_shells 2 [pstr "a"]
      ∧ add_subset (pstr "R") [pstr "p1"] [c5Row] (pstr "b")
          = add_subset (pstr "R") [pstr "p1"] [c5Row] (pstr "b")) :=
  ⟨⟨rfl, rfl, rfl, rfl, rfl, rfl⟩,
   transformations_deterministic 2 2 [pstr "a"] [pstr "a"] (pstr "R") (pstr "R")
     [pstr "p1"] [pstr "p1"] [c5Row] [c5Row] (pstr "b") (pstr "b")
     rfl rfl rfl rfl rfl rfl⟩

/-! ### Claim C6: the NaN fallback and the `Parent` column

For `Category2..Category7` a `NaN` value does reuse the previous level's name.
At the `Parent` column, however, the guard `if current!=current: current =
r["Parent"]` reassigns the `NaN` instead of `previous`, so a `NaN` parent
reaches `current.split` and raises `AttributeError`: the fallback does *not*
extend through the `Parent` column, contradicting the claim — a copy-paste
slip, since the same guard in the loop above assigns `previous`. -/

/-- C6 input: all of `Category2..7` are `NaN`, `Parent` is present. -/
def c6RowNaNCats : Row :=
  { pathway := pstr "p1", category1 := some (pstr "R"),
    parent := some (pstr "P"), name := some (pstr "n1") }

/-- C6 failing input: `Parent` is `NaN` (everything else as the claim needs). -/
def c6RowNoParent : Row :=
  { pathway := pstr "p1", category1 := some (pstr "R"),
    category2 := some (pstr "A"), category3 := some (pstr "C"),
    name := some (pstr "n1") }

set_option maxRecDepth 40000 in
/-- Claim C6, evaluated: with `Category2..7` all `NaN` the walk succeeds and
reuses the previous level's name at every level (`R → R|2 → R|3 → ...`), but
with a `NaN` `Parent` the walk fails with `AttributeError` instead of reusing
the previous level's name — the claimed fallback stops before the `Parent`
column. -/
theorem add_subset_nan_fallback :
    (isOkE (add_subset (pstr "R") [pstr "p1"] [c6RowNaNCats] (pstr "b")) = true
      ∧ (pstr "R", pstr "R|2") ∈ (resultGraph (add_subset (pstr "R") [pstr "p1"]
          [c6RowNaNCats] (pstr "b"))).edges
      ∧ (pstr "R|2", pstr "R|3") ∈ (resultGraph (add_subset (pstr "R") [pstr "p1"]
          [c6RowNaNCats] (pstr "b"))).edges
      ∧ (pstr "R|6", pstr "R|7") ∈ (resultGraph (add_subset (pstr "R") [pstr "p1"]
          [c6RowNaNCats] (pstr "b"))).edges)
    ∧ add_subset (pstr "R") [pstr "p1"] [c6RowNoParent] (pstr "b")
        = .error .attributeError :=
  ⟨⟨by decide, by decide, by decide, by decide⟩, by decide⟩

/-! ### Claim C7: error propagation -/

/-- Whether (and how) the walk for pathway `p` fails: `KeyError` when `p` has
no row in the filtered table, `AttributeError` when its aggregated `Parent` is
`NaN`; `none` when the walk succeeds.  The failure is independent of the graph
accumulated so far. -/
def pathError (rows : List Row) (p : PyStr) : Option PyError :=
  match lookupRow rows p with
  | none => some (.keyError p)
  | some r => if r.parent.isNone then some .attributeError else none

theorem addPath_error_of (rows : List Row) (root col p : PyStr) (g : DiGraph)
    (e : PyError) (h : pathError rows p = some e) :
    addPath rows root col g p = .error e := by
  cases hlr : lookupRow rows p with
  | none =>
    simp only [pathError, hlr, Option.some.injEq] at h
    simp only [addPath, hlr]
    rw [h]
  | some r =>
    simp only [pathError, hlr] at h
    cases hpar : r.parent with
    | none =>
      rw [hpar] at h
      simp only [Option.isNone_none, if_true, Option.some.injEq] at h
      simp only [addPath, hlr, List.foldl_cons, List.foldl_nil]
      rw [← h]
      simp [parentStep, hpar]
    | some s =>
      rw [hpar] at h
      simp at h

theorem addPath_isOk (rows : List Row) (root col p : PyStr) (g : DiGraph)
    (h : pathError rows p = none) :
    isOkE (addPath rows root col g p) = true := by
  cases hlr : lookupRow rows p with
  | none => simp [pathError, hlr] at h
  | some r =>
    simp only [pathError, hlr] at h
    cases hpar : r.parent with
    | none =>
      rw [hpar] at h
      simp at h
    | some s =>
      simp [addPath, hlr, List.foldl_cons, List.foldl_nil, parentStep, hpar, isOkE]

theorem addSubsetGo_error (rows : List Row) (root col : PyStr) (e : PyError) :
    ∀ (pre : List PyStr) (p : PyStr) (post : List PyStr) (g : DiGraph),
      (∀ q ∈ pre, pathError rows q = none) →
      pathError rows p = some e →
      addSubsetGo rows root col g (pre ++ p :: post) = .error e
  | [], p, post, g, _, he => by
    rw [List.nil_append]
    simp only [addSubsetGo, addPath_error_of rows root col p g e he]
  | q :: pre, p, post, g, hpre, he => by
    rw [List.cons_append]
    have hq := hpre q (List.mem_cons_self q pre)
    have hok := addPath_isOk rows root col q g hq
    cases hap : addPath rows root col g q with
    | error e2 =>
      rw [hap] at hok
      simp [isOkE] at hok
    | ok g2 =>
      simp only [addSubsetGo, hap]
      exact addSubsetGo_error rows root col e pre p post g2
        (fun q2 hq2 => hpre q2 (List.mem_cons_of_mem q hq2)) he

/-- Claim C7: no failure or retry handling — when the walk for a pathway `p`
fails (e.g. `p` has no row in the filtered category table, or its `Parent` is
`NaN`) and every pathway before it succeeds, `add_subset` neither catches the
error, retries, nor returns a substitute result: it returns exactly that
error.  (`make_shells` has no fallible step for `num_shells ≥ 1`; it is
modelled total.) -/
theorem add_subset_error_propagation (root col : PyStr) (df : List Row)
    (pre post : List PyStr) (p : PyStr) (e : PyError)
    (hpre : ∀ q ∈ pre, pathError (filterRows root (pre ++ p :: post) df) q = none)
    (he : pathError (filterRows root (pre ++ p :: post) df) p = some e) :
    add_subset root (pre ++ p :: post) df col = .error e := by
  rw [add_subset]
  exact addSubsetGo_error _ root col e pre p post emptyDG hpre he

/-- Witness for C7: a pathway with no row in the table raises `KeyError` and
`add_subset` returns exactly that error. -/
theorem add_subset_error_propagation_witness :
    ((∀ q ∈ ([] : List PyStr),
        pathError (filterRows (pstr "R") ([] ++ pstr "q" :: []) []) q = none)
      ∧ pathError (filterRows (pstr "R") ([] ++ pstr "q" :: []) []) (pstr "q")
          = some (.keyError (pstr "q")))
    ∧ add_subset (pstr "R") ([] ++ pstr "q" :: []) [] (pstr "b")
        = .error (.keyError (pstr "q")) :=
  ⟨⟨fun q hq => absurd hq (List.not_mem_nil q), by decide⟩,
   add_subset_error_propagation (pstr "R") (pstr "b") [] [] [] (pstr "q")
     (.keyError (pstr "q")) (fun q hq => absurd hq (List.not_mem_nil q)) (by decide)⟩

/-! ### Association-list lemmas for attribute updates -/

theorem hasAttrs_false_lookup :
    ∀ (attrs : List (PyStr × NodeAttrs)) (v : PyStr),
      hasAttrs attrs v = false → lookupAttrs attrs v = {}
  | [], _, _ => rfl
  | e :: t, v, h => by
    simp only [hasAttrs, Bool.or_eq_false_iff, decide_eq_false_iff_not] at h
    rw [lookupAttrs, if_neg h.1]
    exact hasAttrs_false_lookup t v h.2

theorem lookupAttrs_updAttr_self :
    ∀ (attrs : List (PyStr × NodeAttrs)) (v : PyStr) (f : NodeAttrs → NodeAttrs),
      hasAttrs attrs v = true →
      lookupAttrs (attrs.map (fun e => if e.1 = v then (e.1, f e.2) else e)) v
        = f (lookupAttrs attrs v)
  | [], v, f, h => by simp [hasAttrs] at h
  | e :: t, v, f, h => by
    by_cases he : e.1 = v
    · simp only [List.map_cons, if_pos he, lookupAttrs, he, if_true]
    · simp only [hasAttrs, Bool.or_eq_true, decide_eq_true_eq] at h
      rcases h with h1 | h2
      · exact absurd h1 he
      · simp only [List.map_cons, if_neg he, lookupAttrs, he, if_false]
        exact lookupAttrs_updAttr_self t v f h2

theorem lookupAttrs_updAttr_ne :
    ∀ (attrs : List (PyStr × NodeAttrs)) (v w : PyStr) (f : NodeAttrs → NodeAttrs),
      w ≠ v →
      lookupAttrs (attrs.map (fun e => if e.1 = v then (e.1, f e.2) else e)) w
        = lookupAttrs attrs w
  | [], _, _, _, _ => rfl
  | e :: t, v, w, f, hne => by
    by_cases he : e.1 = v
    · simp only [List.map_cons, if_pos he, lookupAttrs]
      rw [if_neg (by rw [he]; exact fun hc => hne hc.symm),
        if_neg (by rw [he]; exact fun hc => hne hc.symm)]
      exact lookupAttrs_updAttr_ne t v w f hne
    · simp only [List.map_cons, if_neg he, lookupAttrs]
      by_cases hw : e.1 = w
      · rw [if_pos hw, if_pos hw]
      · rw [if_neg hw, if_neg hw]
        exact lookupAttrs_updAttr_ne t v w f hne

theorem lookupAttrs_append_missing :
    ∀ (attrs : List (PyStr × NodeAttrs)) (v : PyStr) (a : NodeAttrs),
      hasAttrs attrs v = false →
      lookupAttrs (attrs ++ [(v, a)]) v = a
  | [], v, a, _ => by simp [lookupAttrs]
  | e :: t, v, a, h => by
    simp only [hasAttrs, Bool.or_eq_false_iff, decide_eq_false_iff_not] at h
    rw [List.cons_append, lookupAttrs, if_neg h.1]
    exact lookupAttrs_append_missing t v a h.2

theorem lookupAttrs_append_ne :
    ∀ (attrs : List (PyStr × NodeAttrs)) (v w : PyStr) (a : NodeAttrs),
      w ≠ v →
      lookupAttrs (attrs ++ [(v, a)]) w = lookupAttrs attrs w
  | [], v, w, a, hne => by
    have hvw : ¬ v = w := fun hc => hne hc.symm
    simp [lookupAttrs, hvw]
  | e :: t, v, w, a, hne => by
    rw [List.cons_append, lookupAttrs, lookupAttrs]
    by_cases hw : e.1 = w
    · rw [if_pos hw, if_pos hw]
    · rw [if_neg hw, if_neg hw]
      exact lookupAttrs_append_ne t v w a hne

theorem attrOf_updAttr_self (g : DiGraph) (v : PyStr) (f : NodeAttrs → NodeAttrs)
    (h : hasAttrs g.attrs v = true) :
    attrOf (updAttr g v f) v = f (attrOf g v) :=
  lookupAttrs_updAttr_self g.attrs v f h

theorem attrOf_updAttr_ne (g : DiGraph) (v w : PyStr) (f : NodeAttrs → NodeAttrs)
    (hne : w ≠ v) :
    attrOf (updAttr g v f) w = attrOf g w :=
  lookupAttrs_updAttr_ne g.attrs v w f hne

/-! ### `assign_node_weights` (both notebooks)

```
def assign_node_weights(g,d):
    for n in g.nodes():
        try: w = d[n]
        except KeyError: w = 0
        try: g.node[n]['weight'] = w
        except KeyError: g.node[n] = {'weight': w}
    return g
```
-/

/-- Model of `d[n]`, with a missing key reported as `none` (`KeyError`). -/
def lookupW : List (PyStr × ℤ) → PyStr → Option ℤ
  | [], _ => none
  | e :: t, n => if e.1 = n then some e.2 else lookupW t n

/-- One iteration of the loop of `assign_node_weights` for node `n`:
`w = d[n]` falling back to `0` on `KeyError`, then `g.node[n]['weight'] = w`,
falling back to installing the fresh record `{'weight': w}` on `KeyError`. -/
def awStep (d : List (PyStr × ℤ)) (g : DiGraph) (n : PyStr) : DiGraph :=
  let w : ℤ := (lookupW d n).getD 0
  if hasAttrs g.attrs n then updAttr g n (fun a => { a with weight := some w })
  else { g with attrs := g.attrs ++ [(n, { weight := some w })] }

/-- Model of `assign_node_weights(g, d)`. -/
def assign_node_weights (g : DiGraph) (d : List (PyStr × ℤ)) : DiGraph :=
  g.nodes.foldl (awStep d) g

theorem awStep_nodes (d : List (PyStr × ℤ)) (g : DiGraph) (n : PyStr) :
    (awStep d g n).nodes = g.nodes := by
  rw [awStep]
  split_ifs <;> rfl

theorem awStep_edges (d : List (PyStr × ℤ)) (g : DiGraph) (n : PyStr) :
    (awStep d g n).edges = g.edges := by
  rw [awStep]
  split_ifs <;> rfl

theorem attrOf_awStep_self (d : List (PyStr × ℤ)) (g : DiGraph) (n : PyStr) :
    attrOf (awStep d g n) n = { attrOf g n with weight := some ((lookupW d n).getD 0) } := by
  rw [awStep]
  split_ifs with h
  · exact attrOf_updAttr_self g n _ h
  · have h0 : attrOf g n = {} := hasAttrs_false_lookup g.attrs n (by simpa using h)
    rw [h0]
    exact lookupAttrs_append_missing g.attrs n _ (by simpa using h)

theorem attrOf_awStep_ne (d : List (PyStr × ℤ)) (g : DiGraph) (n m : PyStr)
    (hne : m ≠ n) : attrOf (awStep d g n) m = attrOf g m := by
  rw [awStep]
  split_ifs with h
  · exact attrOf_updAttr_ne g n m _ hne
  · exact lookupAttrs_append_ne g.attrs n m _ hne

theorem awFold_attrOf (d : List (PyStr × ℤ)) :
    ∀ (ns : List PyStr) (g : DiGraph) (m : PyStr),
      attrOf (ns.foldl (awStep d) g) m =
        if m ∈ ns then { attrOf g m with weight := some ((lookupW d m).getD 0) }
        else attrOf g m
  | [], g, m => by simp
  | n :: ns, g, m => by
    rw [List.foldl_cons, awFold_attrOf d ns (awStep d g n) m]
    by_cases hmn : m = n
    · subst hmn
      by_cases hin : m ∈ ns
      · rw [if_pos hin, if_pos (List.mem_cons_self m ns), attrOf_awStep_self]
      · rw [if_neg hin, if_pos (List.mem_cons_self m ns), attrOf_awStep_self]
    · rw [attrOf_awStep_ne d g n m hmn]
      by_cases hin : m ∈ ns
      · rw [if_pos hin, if_pos (List.mem_cons_of_mem n hin)]
      · rw [if_neg hin, if_neg (by simp [hmn, hin])]

theorem awFold_nodes (d : List (PyStr × ℤ)) :
    ∀ (ns : List PyStr) (g : DiGraph), (ns.foldl (awStep d) g).nodes = g.nodes
  | [], _ => rfl
  | n :: ns, g => by
    rw [List.foldl_cons, awFold_nodes d ns (awStep d g n), awStep_nodes]

theorem awFold_edges (d : List (PyStr × ℤ)) :
    ∀ (ns : List PyStr) (g : DiGraph), (ns.foldl (awStep d) g).edges = g.edges
  | [], _ => rfl
  | n :: ns, g => by
    rw [List.foldl_cons, awFold_edges d ns (awStep d g n), awStep_edges]

/-- Claim C8: `assign_node_weights` totalises missing counts — after the call,
every node `n` of `g` has `weight` attribute `d[n]` when `n` is a key of `d`
and `0` otherwise (it never fails on a node absent from `d`), no other node
attribute is changed, and the node and edge lists are unchanged. -/
theorem assign_node_weights_total (g : DiGraph) (d : List (PyStr × ℤ)) :
    (∀ n ∈ g.nodes, (attrOf (assign_node_weights g d) n).weight
        = some ((lookupW d n).getD 0))
    ∧ (∀ m : PyStr, (attrOf (assign_node_weights g d) m).col = (attrOf g m).col
        ∧ (attrOf (assign_node_weights g d) m).nameA = (attrOf g m).nameA
        ∧ (attrOf (assign_node_weights g d) m).pos = (attrOf g m).pos)
    ∧ (assign_node_weights g d).nodes = g.nodes
    ∧ (assign_node_weights g d).edges = g.edges := by
  refine ⟨?_, ?_, awFold_nodes d g.nodes g, awFold_edges d g.nodes g⟩
  · intro n hn
    rw [assign_node_weights, awFold_attrOf d g.nodes g n, if_pos hn]
  · intro m
    rw [assign_node_weights, awFold_attrOf d g.nodes g m]
    split_ifs <;> exact ⟨rfl, rfl, rfl⟩

/-- Graph used by the C8 witness: node `b` carries a `col` attribute and is
absent from the count mapping. -/
def c8Graph : DiGraph :=
  { nodes := [pstr "a", pstr "b"], edges := [(pstr "a", pstr "b")],
    attrs := [(pstr "a", {}), (pstr "b", { col := some (pstr "r") })] }

/-- Count mapping used by the C8 witness (no key for `b`). -/
def c8Counts : List (PyStr × ℤ) := [(pstr "a", 5)]

/-- Witness for C8 at a concrete input: `a` gets its count, `b` (absent from
the mapping) gets weight 0 without failing. -/
theorem assign_node_weights_total_witness :
    (pstr "a" ∈ c8Graph.nodes ∧ pstr "b" ∈ c8Graph.nodes)
    ∧ (attrOf (assign_node_weights c8Graph c8Counts) (pstr "a")).weight = some 5
    ∧ (attrOf (assign_node_weights c8Graph c8Counts) (pstr "b")).weight = some 0 :=
  ⟨⟨by decide, by decide⟩,
   (assign_node_weights_total c8Graph c8Counts).1 (pstr "a") (by decide),
   (assign_node_weights_total c8Graph c8Counts).1 (pstr "b") (by decide)⟩

/-! ### `shift_nodes` (src/metacyc/create_metacyc_tree.ipynb)

```
def shift_nodes(g,nodes,x,y):
    for n in nodes:
        xn,yn = g.node[n]['pos']
        xn+=x
        yn+=y
        g.node[n]['pos'] = (xn,yn)
    return g
```
-/

/-- The loop of `shift_nodes`; a listed node without a `pos` attribute (or
absent from the graph) raises `KeyError`. -/
def shiftGo (x y : ℤ) : DiGraph → List PyStr → Except PyError DiGraph
  | g, [] => .ok g
  | g, n :: ns =>
    match (attrOf g n).pos with
    | none => .error (.keyError n)
    | some q =>
      shiftGo x y (updAttr g n (fun a => { a with pos := some (q.1 + x, q.2 + y) })) ns

/-- Model of `shift_nodes(g, nodes, x, y)`. -/
def shift_nodes (g : DiGraph) (nodes : List PyStr) (x y : ℤ) :
    Except PyError DiGraph :=
  shiftGo x y g nodes

theorem hasAttrs_of_pos_isSome (g : DiGraph) (n : PyStr)
    (h : ((attrOf g n).pos).isSome = true) : hasAttrs g.attrs n = true := by
  by_contra hc
  rw [attrOf, hasAttrs_false_lookup g.attrs n (by simpa using hc)] at h
  simp at h

theorem shiftGo_spec (x y : ℤ) :
    ∀ (ns : List PyStr) (g : DiGraph),
      ns.Nodup →
      (∀ n ∈ ns, ((attrOf g n).pos).isSome = true) →
      isOkE (shiftGo x y g ns) = true
      ∧ (∀ n ∈ ns, (attrOf (resultGraph (shiftGo x y g ns)) n).pos
          = ((attrOf g n).pos).map (fun q => (q.1 + x, q.2 + y)))
      ∧ (∀ m, m ∉ ns → attrOf (resultGraph (shiftGo x y g ns)) m = attrOf g m)
      ∧ (∀ m : PyStr,
          (attrOf (resultGraph (shiftGo x y g ns)) m).col = (attrOf g m).col
          ∧ (attrOf (resultGraph (shiftGo x y g ns)) m).nameA = (attrOf g m).nameA
          ∧ (attrOf (resultGraph (shiftGo x y g ns)) m).weight = (attrOf g m).weight)
      ∧ (resultGraph (shiftGo x y g ns)).nodes = g.nodes
      ∧ (resultGraph (shiftGo x y g ns)).edges = g.edges
  | [], g, _, _ => by
    refine ⟨rfl, ?_, ?_, ?_, rfl, rfl⟩
    · intro n hn
      exact absurd hn (List.not_mem_nil n)
    · intro m _
      rfl
    · intro m
      exact ⟨rfl, rfl, rfl⟩
  | n :: ns, g, hnd, hpos => by
    obtain ⟨hnin, hnd2⟩ := List.nodup_cons.mp hnd
    obtain ⟨q, hq⟩ := Option.isSome_iff_exists.mp (hpos n (List.mem_cons_self n ns))
    have hhas : hasAttrs g.attrs n = true :=
      hasAttrs_of_pos_isSome g n (hpos n (List.mem_cons_self n ns))
    have hg1self : attrOf (updAttr g n
        (fun a => { a with pos := some (q.1 + x, q.2 + y) })) n
        = { attrOf g n with pos := some (q.1 + x, q.2 + y) } :=
      attrOf_updAttr_self g n _ hhas
    have hg1ne : ∀ m, m ≠ n → attrOf (updAttr g n
        (fun a => { a with pos := some (q.1 + x, q.2 + y) })) m = attrOf g m :=
      fun m hm => attrOf_updAttr_ne g n m _ hm
    obtain ⟨ihok, ihpos, ihfr, ihattr, ihnodes, ihedges⟩ :=
      shiftGo_spec x y ns (updAttr g n (fun a => { a with pos := some (q.1 + x, q.2 + y) }))
        hnd2
        (by
          intro m hm
          rw [hg1ne m (fun hc => hnin (hc ▸ hm))]
          exact hpos m (List.mem_cons_of_mem n hm))
    have hstep : shiftGo x y g (n :: ns) = shiftGo x y
        (updAttr g n (fun a => { a with pos := some (q.1 + x, q.2 + y) })) ns := by
      rw [shiftGo, hq]
    rw [hstep]
    refine ⟨ihok, ?_, ?_, ?_, by rw [ihnodes, updAttr_nodes], by rw [ihedges, updAttr_edges]⟩
    · intro m hm
      rcases List.mem_cons.mp hm with rfl | hm2
      · rw [ihfr m hnin, hg1self, hq]
        rfl
      · rw [ihpos m hm2, hg1ne m (fun hc => hnin (hc ▸ hm2))]
    · intro m hm
      rw [ihfr m (fun hc => hm (List.mem_cons_of_mem n hc)),
        hg1ne m (fun hc => hm (hc ▸ List.mem_cons_self n ns))]
    · intro m
      obtain ⟨hcol, hname, hw⟩ := ihattr m
      by_cases hmn : m = n
      · subst hmn
        rw [hcol, hname, hw, hg1self]
        exact ⟨rfl, rfl, rfl⟩
      · rw [hcol, hname, hw, hg1ne m hmn]
        exact ⟨rfl, rfl, rfl⟩

/-- Claim C9 (amended): for distinct listed nodes that all carry a `pos`
attribute, `shift_nodes` succeeds, translates each listed node's `pos` by
`(x, y)`, leaves the attribute record of every unlisted node, every other
attribute of every node, and the node and edge lists unchanged. -/
theorem shift_nodes_frame (g : DiGraph) (nodes : List PyStr) (x y : ℤ)
    (hnd : nodes.Nodup)
    (hpos : ∀ n ∈ nodes, ((attrOf g n).pos).isSome = true) :
    isOkE (shift_nodes g nodes x y) = true
    ∧ (∀ n ∈ nodes, (attrOf (resultGraph (shift_nodes g nodes x y)) n).pos
        = ((attrOf g n).pos).map (fun q => (q.1 + x, q.2 + y)))
    ∧ (∀ m, m ∉ nodes → attrOf (resultGraph (shift_nodes g nodes x y)) m = attrOf g m)
    ∧ (∀ m : PyStr,
        (attrOf (resultGraph (shift_nodes g nodes x y)) m).col = (attrOf g m).col
        ∧ (attrOf (resultGraph (shift_nodes g nodes x y)) m).nameA = (attrOf g m).nameA
        ∧ (attrOf (resultGraph (shift_nodes g nodes x y)) m).weight = (attrOf g m).weight)
    ∧ (resultGraph (shift_nodes g nodes x y)).nodes = g.nodes
    ∧ (resultGraph (shift_nodes g nodes x y)).edges = g.edges :=
  shiftGo_spec x y nodes g hnd hpos

/-- Graph used by the C9 witness and counterexample. -/
def c9Graph : DiGraph :=
  { nodes := [pstr "a"], edges := [],
    attrs := [(pstr "a", { pos := some (0, 0) })] }

/-- Claim C9, counterexample: with the node `a` listed twice — every listed
node carries a `pos` attribute, as the claim requires — its position is
translated twice, ending at `(2, 0)` instead of the claimed single translation
`(1, 0)`. -/
theorem shift_nodes_not_translation :
    (∀ n ∈ [pstr "a", pstr "a"], ((attrOf c9Graph n).pos).isSome = true)
    ∧ (attrOf (resultGraph (shift_nodes c9Graph [pstr "a", pstr "a"] 1 0))
        (pstr "a")).pos = some (2, 0)
    ∧ some ((2 : ℤ), (0 : ℤ))
        ≠ ((attrOf c9Graph (pstr "a")).pos).map (fun q => (q.1 + 1, q.2 + 0)) :=
  ⟨by decide, by decide, by decide⟩

/-- Witness for the amended C9 at a concrete input. -/
theorem shift_nodes_frame_witness :
    ([pstr "a"].Nodup ∧ (∀ n ∈ [pstr "a"], ((attrOf c9Graph n).pos).isSome = true))
    ∧ (isOkE (shift_nodes c9Graph [pstr "a"] 1 0) = true
      ∧ (∀ n ∈ [pstr "a"], (attrOf (resultGraph (shift_nodes c9Graph [pstr "a"] 1 0)) n).pos
          = ((attrOf c9Graph n).pos).map (fun q => (q.1 + 1, q.2 + 0)))
      ∧ (∀ m, m ∉ [pstr "a"] →
          attrOf (resultGraph (shift_nodes c9Graph [pstr "a"] 1 0)) m = attrOf c9Graph m)
      ∧ (∀ m : PyStr,
          (attrOf (resultGraph (shift_nodes c9Graph [pstr "a"] 1 0)) m).col
            = (attrOf c9Graph m).col
          ∧ (attrOf (resultGraph (shift_nodes c9Graph [pstr "a"] 1 0)) m).nameA
            = (attrOf c9Graph m).nameA
          ∧ (attrOf (resultGraph (shift_nodes c9Graph [pstr "a"] 1 0)) m).weight
            = (attrOf c9Graph m).weight)
      ∧ (resultGraph (shift_nodes c9Graph [pstr "a"] 1 0)).nodes = c9Graph.nodes
      ∧ (resultGraph (shift_nodes c9Graph [pstr "a"] 1 0)).edges = c9Graph.edges) :=
  ⟨⟨by decide, by decide⟩, shift_nodes_frame c9Graph [pstr "a"] 1 0 (by decide) (by decide)⟩

/-! ### The pathway subsets (both notebooks)

```
core = ["Generation of Precursor Metabolites and Energy"]
syn = ["Biosynthesis"]
deg = ["Degradation/Utilization/Assimilation"]

core_pwys = list(set(metacyc_df.loc[metacyc_df.Category1.isin(core),"Pathway"]))
deg_pwys = list(set(metacyc_df.loc[metacyc_df.Category1.isin(deg),"Pathway"]))
deg_pwys = list(set(deg_pwys).difference(set(core_pwys)))
syn_pwys = list(set(metacyc_df.loc[metacyc_df.Category1.isin(syn),"Pathway"]))
syn_pwys = list(set(syn_pwys).difference(set(core_pwys+deg_pwys)))
```

The three collections are built as Python sets (the final `list(...)` only
fixes an iteration order), so they are modelled as `Finset`s. -/

/-- The `core` root-category list. -/
def core : List PyStr := [pstr "Generation of Precursor Metabolites and Energy"]

/-- The `syn` root-category list. -/
def syn : List PyStr := [pstr "Biosynthesis"]

/-- The `deg` root-category list. -/
def deg : List PyStr := [pstr "Degradation/Utilization/Assimilation"]

/-- Model of `set(metacyc_df.loc[metacyc_df.Category1.isin(cats),"Pathway"])`. -/
def catPwys (df : List Row) (cats : List PyStr) : Finset PyStr :=
  ((df.filter (fun r => match r.category1 with
      | some c => decide (c ∈ cats)
      | none => false)).map (fun r => r.pathway)).toFinset

/-- Model of `core_pwys`. -/
def core_pwys (df : List Row) : Finset PyStr := catPwys df core

/-- Model of `deg_pwys` (after removing the overlap with `core_pwys`). -/
def deg_pwys (df : List Row) : Finset PyStr := catPwys df deg \ core_pwys df

/-- Model of `syn_pwys` (after removing the overlap with `core_pwys + deg_pwys`). -/
def syn_pwys (df : List Row) : Finset PyStr :=
  catPwys df syn \ (core_pwys df ∪ deg_pwys df)

/-- Claim C10: for every category table the three pathway subsets are pairwise
disjoint (overlaps are kept in `core` first, then `deg`), and every pathway
whose `Category1` is one of the three root categories lands in exactly one of
them. -/
theorem pwy_subsets_partition (df : List Row) :
    (Disjoint (core_pwys df) (deg_pwys df)
      ∧ Disjoint (core_pwys df) (syn_pwys df)
      ∧ Disjoint (deg_pwys df) (syn_pwys df))
    ∧ ∀ p, p ∈ catPwys df core ∪ catPwys df deg ∪ catPwys df syn →
        ((p ∈ core_pwys df ∧ p ∉ deg_pwys df ∧ p ∉ syn_pwys df)
          ∨ (p ∉ core_pwys df ∧ p ∈ deg_pwys df ∧ p ∉ syn_pwys df)
          ∨ (p ∉ core_pwys df ∧ p ∉ deg_pwys df ∧ p ∈ syn_pwys df)) := by
  constructor
  · refine ⟨disjoint_sdiff_self_right, ?_, ?_⟩
    · exact disjoint_sdiff_self_right.mono_left le_sup_left
    · exact disjoint_sdiff_self_right.mono_left le_sup_right
  · intro p hp
    simp only [Finset.mem_union] at hp
    by_cases hc : p ∈ core_pwys df
    · refine Or.inl ⟨hc, ?_, ?_⟩
      · simp [deg_pwys, Finset.mem_sdiff, hc]
      · simp [syn_pwys, Finset.mem_sdiff, Finset.mem_union, hc]
    · by_cases hd : p ∈ catPwys df deg
      · have hdm : p ∈ deg_pwys df := Finset.mem_sdiff.mpr ⟨hd, hc⟩
        refine Or.inr (Or.inl ⟨hc, hdm, ?_⟩)
        simp [syn_pwys, Finset.mem_sdiff, Finset.mem_union, hdm]
      · have hdm : p ∉ deg_pwys df := by
          simp [deg_pwys, Finset.mem_sdiff, hd]
        have hs : p ∈ catPwys df syn := by
          rcases hp with (h1 | h2) | h3
          · exact absurd h1 hc
          · exact absurd h2 hd
          · exact h3
        exact Or.inr (Or.inr ⟨hc, hdm,
          Finset.mem_sdiff.mpr ⟨hs, by simp [Finset.mem_union, hc, hdm]⟩⟩)

/-- Row used by the C10 witness. -/
def c10Row : Row :=
  { pathway := pstr "px", category1 := some (pstr "Biosynthesis") }

/-- Witness for C10 at a concrete input: a pathway categorised under
`Biosynthesis` lands in `syn_pwys` and in neither other subset. -/
theorem pwy_subsets_partition_witness :
    pstr "px" ∈ catPwys [c10Row] core ∪ catPwys [c10Row] deg ∪ catPwys [c10Row] syn
    ∧ ((pstr "px" ∈ core_pwys [c10Row] ∧ pstr "px" ∉ deg_pwys [c10Row]
          ∧ pstr "px" ∉ syn_pwys [c10Row])
        ∨ (pstr "px" ∉ core_pwys [c10Row] ∧ pstr "px" ∈ deg_pwys [c10Row]
          ∧ pstr "px" ∉ syn_pwys [c10Row])
        ∨ (pstr "px" ∉ core_pwys [c10Row] ∧ pstr "px" ∉ deg_pwys [c10Row]
          ∧ pstr "px" ∈ syn_pwys [c10Row])) :=
  ⟨by decide, (pwy_subsets_partition [c10Row]).2 (pstr "px") (by decide)⟩

end Biovis
